import Mathlib

/-!
Verification of the Deepr query-to-expression parser
(`src/packages/runtime/src/parser.js`).

The raw JavaScript query value is embedded as the inductive type `Query`;
the parser's output object is embedded as `Expression`.  The recursive
function `_parseQuery` of the source is embedded as `parseQ`, written with
an explicit fuel argument so that it is structurally recursive (the fuel
strictly exceeds the recursion depth whenever it is called through
`parseQuery`, which supplies the nesting depth `qfuel query` as fuel; one
unit of fuel is consumed per query-nesting level).
-/

/-- A raw JavaScript value appearing in a query: the literal `true`,
`false`, `null`, `undefined`, numbers, strings, arrays and plain objects
(a plain object is represented by its `Object.entries` list, in insertion
order). -/
inductive Query where
  | qtrue : Query
  | qfalse : Query
  | qnull : Query
  | undef : Query
  | num : Int → Query
  | str : String → Query
  | arr : List Query → Query
  | map : List (String × Query) → Query

/-- Is this value JavaScript `undefined`? -/
def Query.isUndef : Query → Bool
  | .undef => true
  | _ => false

/-- The expression node built by the parser.  Fields follow the object
literal of `_parseQuery`: `sourceKey`, `isOptional` (absent = `false`),
`useCollectionElements` (absent = `false`), `params` (absent = `none`),
`nextExpression` and `nestedExpressions` (absent = `none`; a present
`nestedExpressions` object is the assoc list of its entries in insertion
order). -/
inductive Expression where
  | mk : String → Bool → Bool → Option Query → Option Expression →
      Option (List (String × Expression)) → Expression

def Expression.sourceKey : Expression → String
  | .mk s _ _ _ _ _ => s

def Expression.isOptional : Expression → Bool
  | .mk _ o _ _ _ _ => o

def Expression.useCollectionElements : Expression → Bool
  | .mk _ _ u _ _ _ => u

def Expression.params : Expression → Option Query
  | .mk _ _ _ p _ _ => p

def Expression.nextExpression : Expression → Option Expression
  | .mk _ _ _ _ n _ => n

def Expression.nestedExpressions : Expression → Option (List (String × Expression))
  | .mk _ _ _ _ _ ne => ne

/-- The errors thrown by the parser.  Each constructor corresponds to one
`throw new Error(...)` site of the source:
`missingQuery` = "'query' parameter is missing",
`invalidArrayForm` = "An array should contain exactly one item"
(the spec's InvalidArraySyntax),
`invalidQueryShape` = "Invalid query found: ..." (carries the value),
`invalidKey` = "Invalid key found: ..." (the spec's InvalidKeySyntax),
`multipleEmptyTargets` = "Multiple empty targets found at the same level",
`conflictingTargets` = "Empty and non-empty targets found at the same level".
`outOfFuel` is an artifact of the fuel-indexed embedding; `parseQuery`
supplies more fuel than the recursion depth, so it never escapes. -/
inductive ParseError where
  | missingQuery : ParseError
  | invalidArrayForm : ParseError
  | invalidQueryShape : Query → ParseError
  | invalidKey : String → ParseError
  | multipleEmptyTargets : ParseError
  | conflictingTargets : ParseError
  | outOfFuel : ParseError

-- The nesting depth of a query (one more than the depth of its deepest
-- sub-value); used as the fuel bound for `parseQ`.
mutual
def qfuel : Query → Nat
  | .arr l => lfuel l + 1
  | .map l => efuel l + 1
  | _ => 1
def lfuel : List Query → Nat
  | [] => 0
  | q :: r => max (qfuel q) (lfuel r)
def efuel : List (String × Query) → Nat
  | [] => 0
  | (_, v) :: r => max (qfuel v) (efuel r)
end

/-- A key matcher of the configuration: either a plain string (compared by
`===`) or a pattern object (used through its `test` method, embedded as an
abstract predicate). -/
inductive Matcher where
  | str : String → Matcher
  | pat : (String → Bool) → Matcher

/-- `testKey(key, patterns)` of the source. -/
def testKey (key : String) (patterns : List Matcher) : Bool :=
  patterns.any fun pattern =>
    match pattern with
    | .str s => s == key
    | .pat p => p key

/-- An `ignoreKeys` / `acceptKeys` option as supplied by the caller:
either a single matcher or a list of matchers. -/
inductive KeysOption where
  | one : Matcher → KeysOption
  | many : List Matcher → KeysOption

/-- The `if (!Array.isArray(x)) x = [x]` normalization in `parseQuery`. -/
def normalizeKeys : KeysOption → List Matcher
  | .one m => [m]
  | .many l => l

/-- The options argument of `parseQuery`. -/
structure Options where
  ignoreKeys : KeysOption
  acceptKeys : KeysOption
  ignoreBuiltInKeys : Bool

/-- The defaults `{ignoreKeys = [], acceptKeys = [], ignoreBuiltInKeys = true}`. -/
def defaultOptions : Options := ⟨.many [], .many [], true⟩

/-- The normalized configuration threaded through `_parseQuery`. -/
structure Config where
  ignoreKeys : List Matcher
  acceptKeys : List Matcher
  ignoreBuiltInKeys : Bool

/-- `key.split('=>')` of the source, on the character list of the key:
splits on every non-overlapping occurrence of the two-character separator,
scanning left to right. -/
def splitArrowAux : List Char → List Char → List (List Char)
  | [], acc => [acc.reverse]
  | '=' :: '>' :: rest, acc => acc.reverse :: splitArrowAux rest []
  | c :: rest, acc => splitArrowAux rest (c :: acc)

def splitArrow (s : List Char) : List (List Char) := splitArrowAux s []

/-- `parseSourceKey` of the source: if the raw source ends with `'?'`,
strip it (`slice(0, -1)`) and report `isOptional = true`. -/
def parseSourceKey (sourceKey : List Char) : List Char × Bool :=
  if sourceKey.getLast? = some '?' then (sourceKey.dropLast, true)
  else (sourceKey, false)

/-- The result of `parseKey`. -/
structure ParsedKey where
  sourceKey : String
  targetKey : String
  isOptional : Bool
deriving DecidableEq

/-- `parseKey` of the source: split on `'=>'`; one part means the stripped
source doubles as the target, two parts keep the second verbatim as the
target, anything else is an error. -/
def parseKey (key : String) : Except ParseError ParsedKey :=
  match splitArrow key.data with
  | [s] =>
      let (sk, opt) := parseSourceKey s
      .ok ⟨String.mk sk, String.mk sk, opt⟩
  | [s, t] =>
      let (sk, opt) := parseSourceKey s
      .ok ⟨String.mk sk, String.mk t, opt⟩
  | _ => .error (.invalidKey key)

/-- Own property names of `Object.prototype` in the standard ECMAScript
runtime the source executes in (reflection result modelled as a constant
list; the code only consumes it through `Object.getOwnPropertyNames`). -/
def objectProtoNames : List String :=
  ["constructor", "__defineGetter__", "__defineSetter__", "hasOwnProperty",
   "__lookupGetter__", "__lookupSetter__", "isPrototypeOf",
   "propertyIsEnumerable", "toString", "valueOf", "__proto__",
   "toLocaleString"]

/-- Own property names of `Function.prototype` (modelled likewise). -/
def functionProtoNames : List String :=
  ["length", "name", "arguments", "caller", "constructor", "apply", "bind",
   "call", "toString"]

/-- Own property names of the function expression `function () {}`
(modelled likewise). -/
def funcOwnNames : List String :=
  ["length", "name", "arguments", "caller", "prototype"]

/-- Own property names of the class declaration `class Obj {}`
(modelled likewise). -/
def classOwnNames : List String := ["length", "name", "prototype"]

/-- Own property names of `Obj.prototype` for `class Obj {}`. -/
def objProtoOwnNames : List String := ["constructor"]

/-- The inner `for` loop of `_addKeys`: push every own property name that
is neither `'name'` nor `'length'` nor already present. -/
def addOwnNames : List String → List String → List String
  | array, [] => array
  | array, k :: ks =>
      addOwnNames
        (if k = "name" ∨ k = "length" ∨ array.contains k then array
         else array ++ [k]) ks

/-- `_addKeys(array, object)` of the source: walk the prototype chain of
`object` (embedded as the list of own-property-name lists along the
chain), accumulating names level by level. -/
def _addKeys : List String → List (List String) → List String
  | array, [] => array
  | array, names :: rest => _addKeys (addOwnNames array names) rest

/-- The prototype chain of `obj = new Obj()` (`obj` itself has no own
property names). -/
def objChain : List (List String) := [[], objProtoOwnNames, objectProtoNames]

/-- The prototype chain of `func = function () {}`. -/
def funcChain : List (List String) := [funcOwnNames, functionProtoNames, objectProtoNames]

/-- The prototype chain of the class `Obj` itself. -/
def classChain : List (List String) := [classOwnNames, functionProtoNames, objectProtoNames]

/-- `getBuiltInKeys()` of the source (the memoized `_builtInKeys` value):
`_addKeys` applied to a plain object, a function and a class in turn. -/
def builtInKeys : List String :=
  _addKeys (_addKeys (_addKeys [] objChain) funcChain) classChain

/-- Assignment `nestedExpressions[targetKey] = subexpression` on a
JavaScript object: replace in place if the key exists, append otherwise. -/
def insertAL : List (String × Expression) → String → Expression → List (String × Expression)
  | [], k, v => [(k, v)]
  | (k0, v0) :: rest, k, v =>
      if k0 = k then (k0, v) :: rest else (k0, v0) :: insertAL rest k v

/-- `Object.entries` applied to an array: the elements keyed by their
decimal indices. -/
def indexEntriesFrom : Nat → List Query → List (String × Query)
  | _, [] => []
  | i, q :: r => (Nat.repr i, q) :: indexEntriesFrom (i + 1) r

def indexEntries (l : List Query) : List (String × Query) :=
  indexEntriesFrom 0 l

/-- The loop state of `_parseQuery`: the `params` slot of the expression
under construction, the local `nestedExpressions` and `nextExpression`. -/
abbrev LoopState :=
  Option Query × Option (List (String × Expression)) × Option Expression

/-- Lines 125–134 of the source: after the loop, reject a level that has
both an empty-target child and aliased children, otherwise attach the
populated slot. -/
def assemble (sk : String) (opt uce : Bool) (st : LoopState) :
    Except ParseError Expression :=
  match st with
  | (p, ne, nx) =>
    match nx with
    | some nxe =>
        match ne with
        | some _ => .error .conflictingTargets
        | none => .ok (.mk sk opt uce p (some nxe) none)
    | none => .ok (.mk sk opt uce p none ne)

/-- The `for (const [key, value] of Object.entries(query))` loop of
`_parseQuery`, with the recursive call abstracted as `rec`. -/
def processEntriesGo (rec : Query → String → Bool → Except ParseError Expression)
    (cfg : Config) :
    List (String × Query) → Option Query →
    Option (List (String × Expression)) → Option Expression →
    Except ParseError LoopState
  | [], p, ne, nx => .ok (p, ne, nx)
  | (k, v) :: rest, p, ne, nx =>
      if k = "()" then processEntriesGo rec cfg rest (some v) ne nx
      else
        match parseKey k with
        | .error e => .error e
        | .ok pk =>
            if cfg.ignoreBuiltInKeys && builtInKeys.contains pk.sourceKey then
              processEntriesGo rec cfg rest p ne nx
            else if testKey pk.sourceKey cfg.ignoreKeys &&
                !testKey pk.sourceKey cfg.acceptKeys then
              processEntriesGo rec cfg rest p ne nx
            else
              match rec v pk.sourceKey pk.isOptional with
              | .error e => .error e
              | .ok sub =>
                  if pk.targetKey ≠ "" then
                    processEntriesGo rec cfg rest p
                      (some (insertAL (ne.getD []) pk.targetKey sub)) nx
                  else
                    match nx with
                    | some _ => .error .multipleEmptyTargets
                    | none => processEntriesGo rec cfg rest p ne (some sub)

/-- The body of `_parseQuery` after the array unwrap (lines 79–136): a
literal `true` yields a leaf, an object iterates its entries, an array in
body position is iterated through `Object.entries` like an object
(JavaScript arrays pass the `typeof query === 'object'` test), and any
other value is rejected. -/
def parseBodyGo (rec : Query → String → Bool → Except ParseError Expression)
    (cfg : Config) (query : Query) (sk : String) (opt uce : Bool) :
    Except ParseError Expression :=
  match query with
  | .qtrue => .ok (.mk sk opt uce none none none)
  | .map entries =>
      (processEntriesGo rec cfg entries none none none).bind (assemble sk opt uce)
  | .arr xs =>
      (processEntriesGo rec cfg (indexEntries xs) none none none).bind
        (assemble sk opt uce)
  | bad => .error (.invalidQueryShape bad)

/-- `_parseQuery(query, {sourceKey, isOptional}, config)` of the source,
with fuel.  A missing (`undefined`) query is rejected first; an array must
have exactly one element, which is unwrapped with
`useCollectionElements = true`; the body is then processed by
`parseBodyGo`.  One unit of fuel is consumed per nesting level. -/
def parseQ : Nat → Query → String → Bool → Config → Except ParseError Expression
  | 0, _, _, _, _ => .error .outOfFuel
  | fuel + 1, query, sk, opt, cfg =>
      match query with
      | .undef => .error .missingQuery
      | .arr l =>
          match l with
          | [q] => parseBodyGo (fun v s o => parseQ fuel v s o cfg) cfg q sk opt true
          | _ => .error .invalidArrayForm
      | q => parseBodyGo (fun v s o => parseQ fuel v s o cfg) cfg q sk opt false

/-- The normalized configuration built by `parseQuery`. -/
def normCfg (opts : Options) : Config :=
  ⟨normalizeKeys opts.ignoreKeys, normalizeKeys opts.acceptKeys,
   opts.ignoreBuiltInKeys⟩

/-- `parseQuery(query, options)` of the source: reject an `undefined`
query, normalize the key matchers, and run `_parseQuery` at the root
context (`sourceKey = ''`, `isOptional` absent).  `qfuel query` bounds the
recursion depth, so the fuel never runs out. -/
def parseQuery (query : Query) (opts : Options) : Except ParseError Expression :=
  match query with
  | .undef => .error .missingQuery
  | q => parseQ (qfuel q) q "" false (normCfg opts)

/-- Lookup in an expression's `nestedExpressions` object. -/
def lookupAL : List (String × Expression) → String → Option Expression
  | [], _ => none
  | (k, v) :: rest, t => if k = t then some v else lookupAL rest t

def Expression.lookupNE (e : Expression) (t : String) : Option Expression :=
  lookupAL (e.nestedExpressions.getD []) t

set_option maxRecDepth 100000

/-! ### Specification-side helpers -/

/-- The guard sequence the loop applies to one entry key: `none` when the
loop `continue`s without producing a child (parameter marker, built-in
key, ignored-and-not-accepted key) or when `parseKey` fails (in which
case the whole parse fails anyway), `some pk` when the entry produces a
child expression. -/
def entryAccepted (cfg : Config) (k : String) : Option ParsedKey :=
  if k = "()" then none
  else
    match parseKey k with
    | .error _ => none
    | .ok pk =>
        if cfg.ignoreBuiltInKeys && builtInKeys.contains pk.sourceKey then none
        else if testKey pk.sourceKey cfg.ignoreKeys &&
            !testKey pk.sourceKey cfg.acceptKeys then none
        else some pk

/-- The target keys of the accepted entries of one mapping level, in
entry order. -/
def acceptedTargetsOf (cfg : Config) (entries : List (String × Query)) :
    List String :=
  entries.filterMap fun kv => (entryAccepted cfg kv.1).map ParsedKey.targetKey

/-- The `params` slot after iterating the entries: the value of the last
parameter-marker entry, if any. -/
def paramsAfter : List (String × Query) → Option Query → Option Query
  | [], p => p
  | (k, v) :: rest, p => paramsAfter rest (if k = "()" then some v else p)

/-- The keys of a possibly-absent `nestedExpressions` object. -/
def neKeys (o : Option (List (String × Expression))) : List String :=
  (o.getD []).map Prod.fst

/-- The structural invariant of claim C2, holding at every node of a
tree: `nextExpression` and `nestedExpressions` are never both present. -/
inductive GoodE : Expression → Prop where
  | intro : ∀ (sk : String) (opt uce : Bool) (p : Option Query)
      (nx : Option Expression) (ne : Option (List (String × Expression))),
      ¬(nx.isSome = true ∧ ne.isSome = true) →
      (∀ e, nx = some e → GoodE e) →
      (∀ l, ne = some l → ∀ x ∈ l, GoodE x.2) →
      GoodE (.mk sk opt uce p nx ne)

/-- A value that is neither `true`, nor a sequence, nor a mapping: the
shapes rejected by the body of `_parseQuery`. -/
def badScalar : Query → Bool
  | .qnull => true
  | .qfalse => true
  | .num _ => true
  | .str _ => true
  | .undef => true
  | _ => false

/-- One-step unfolding of `parseQ` at positive fuel. -/
theorem parseQ_step (f : Nat) (q : Query) (sk : String) (opt : Bool) (cfg : Config) :
    parseQ (f + 1) q sk opt cfg =
      match q with
      | .undef => .error .missingQuery
      | .arr l =>
          match l with
          | [q'] => parseBodyGo (fun v s o => parseQ f v s o cfg) cfg q' sk opt true
          | _ => .error .invalidArrayForm
      | q' => parseBodyGo (fun v s o => parseQ f v s o cfg) cfg q' sk opt false := rfl

/-- Keys after a JavaScript-object assignment: unchanged when the key was
already present, appended otherwise. -/
theorem insertAL_map_fst (l : List (String × Expression)) (k : String) (v : Expression) :
    (insertAL l k v).map Prod.fst =
      if k ∈ l.map Prod.fst then l.map Prod.fst else l.map Prod.fst ++ [k] := by
  induction l with
  | nil => simp [insertAL]
  | cons kv rest ih =>
      obtain ⟨k0, v0⟩ := kv
      by_cases hk : k0 = k
      · subst hk
        simp [insertAL]
      · simp only [insertAL, if_neg hk, List.map_cons, ih]
        by_cases hm : k ∈ rest.map Prod.fst
        · simp [hm, Ne.symm hk]
        · simp [hm, Ne.symm hk]

theorem mem_insertAL_keys (l : List (String × Expression)) (k t : String) (v : Expression) :
    (t ∈ (insertAL l k v).map Prod.fst) ↔ (t ∈ l.map Prod.fst ∨ t = k) := by
  rw [insertAL_map_fst]
  by_cases hm : k ∈ l.map Prod.fst
  · simp only [if_pos hm]
    constructor
    · exact fun h => Or.inl h
    · rintro (h | rfl)
      · exact h
      · exact hm
  · simp [if_neg hm]

theorem nodup_insertAL_keys (l : List (String × Expression)) (k : String) (v : Expression)
    (h : (l.map Prod.fst).Nodup) : ((insertAL l k v).map Prod.fst).Nodup := by
  rw [insertAL_map_fst]
  by_cases hm : k ∈ l.map Prod.fst
  · simpa [if_pos hm] using h
  · rw [if_neg hm]
    simp only [List.nodup_append, List.nodup_cons, List.not_mem_nil, not_false_iff,
      List.nodup_nil, and_true, true_and]
    exact ⟨h, by simpa [List.disjoint_singleton] using hm⟩

/-- Every binding of the object after an assignment is the assigned pair
or one of the previous bindings. -/
theorem mem_insertAL (l : List (String × Expression)) (k : String) (v : Expression) :
    ∀ x ∈ insertAL l k v, x = (k, v) ∨ x ∈ l := by
  induction l with
  | nil =>
      intro x hx
      simp only [insertAL, List.mem_singleton] at hx
      exact Or.inl hx
  | cons kv rest ih =>
      obtain ⟨k0, v0⟩ := kv
      intro x hx
      simp only [insertAL] at hx
      by_cases hk : k0 = k
      · rw [if_pos hk] at hx
        rcases List.mem_cons.mp hx with h | h
        · exact Or.inl (by rw [h, hk])
        · exact Or.inr (List.mem_cons_of_mem _ h)
      · rw [if_neg hk] at hx
        rcases List.mem_cons.mp hx with h | h
        · exact Or.inr (by rw [h]; exact List.mem_cons_self _ _)
        · rcases ih x h with h2 | h2
          · exact Or.inl h2
          · exact Or.inr (List.mem_cons_of_mem _ h2)

/-- One-step unfolding of the loop on a cons cell. -/
theorem processEntriesGo_cons (rec : Query → String → Bool → Except ParseError Expression)
    (cfg : Config) (k : String) (v : Query) (rest : List (String × Query))
    (p : Option Query) (ne : Option (List (String × Expression))) (nx : Option Expression) :
    processEntriesGo rec cfg ((k, v) :: rest) p ne nx =
      (if k = "()" then processEntriesGo rec cfg rest (some v) ne nx
       else
        match parseKey k with
        | .error e => .error e
        | .ok pk =>
            if cfg.ignoreBuiltInKeys && builtInKeys.contains pk.sourceKey then
              processEntriesGo rec cfg rest p ne nx
            else if testKey pk.sourceKey cfg.ignoreKeys &&
                !testKey pk.sourceKey cfg.acceptKeys then
              processEntriesGo rec cfg rest p ne nx
            else
              match rec v pk.sourceKey pk.isOptional with
              | .error e => .error e
              | .ok sub =>
                  if pk.targetKey ≠ "" then
                    processEntriesGo rec cfg rest p
                      (some (insertAL (ne.getD []) pk.targetKey sub)) nx
                  else
                    match nx with
                    | some _ => .error .multipleEmptyTargets
                    | none => processEntriesGo rec cfg rest p ne (some sub)) := rfl

/-- Correctness of one level of the loop: on success, the final
`nestedExpressions` keys are exactly the previous keys plus the non-empty
accepted targets, `nextExpression` is populated exactly when an accepted
entry has an empty target, the `params` slot holds the last
parameter-marker value, at most one empty target is tolerated, and key
uniqueness is preserved. -/
theorem processEntriesGo_spec (rec : Query → String → Bool → Except ParseError Expression)
    (cfg : Config) :
    ∀ (entries : List (String × Query)) (p : Option Query)
      (ne : Option (List (String × Expression))) (nx : Option Expression)
      (p' : Option Query) (ne' : Option (List (String × Expression)))
      (nx' : Option Expression),
      processEntriesGo rec cfg entries p ne nx = .ok (p', ne', nx') →
      ((∀ t, t ≠ "" →
          (t ∈ neKeys ne' ↔ (t ∈ neKeys ne ∨ t ∈ acceptedTargetsOf cfg entries))) ∧
       (nx'.isSome = true ↔ (nx.isSome = true ∨ "" ∈ acceptedTargetsOf cfg entries)) ∧
       p' = paramsAfter entries p ∧
       (acceptedTargetsOf cfg entries).count "" + (if nx.isSome then 1 else 0) ≤ 1 ∧
       ((neKeys ne).Nodup → (neKeys ne').Nodup)) := by
  intro entries
  induction entries with
  | nil =>
      intro p ne nx p' ne' nx' h
      simp only [processEntriesGo, Except.ok.injEq] at h
      obtain ⟨rfl, rfl, rfl⟩ := Prod.mk.injEq .. |>.mp (by exact h) |>.imp id
        (fun h2 => Prod.mk.injEq .. |>.mp h2)
      refine ⟨fun t ht => by simp [acceptedTargetsOf], by simp [acceptedTargetsOf],
        rfl, ?_, fun hd => hd⟩
      simp only [acceptedTargetsOf, List.filterMap_nil, List.count_nil, Nat.zero_add]
      split <;> omega
  | cons kv rest ih =>
      obtain ⟨k, v⟩ := kv
      intro p ne nx p' ne' nx' h
      rw [processEntriesGo_cons] at h
      by_cases hpar : k = "()"
      · rw [if_pos hpar] at h
        obtain ⟨c1, c2, c3, c4, c5⟩ := ih (some v) ne nx p' ne' nx' h
        have hacc : acceptedTargetsOf cfg ((k, v) :: rest) = acceptedTargetsOf cfg rest := by
          simp [acceptedTargetsOf, List.filterMap_cons, entryAccepted, hpar]
        rw [hacc]
        exact ⟨c1, c2, by rw [c3]; simp [paramsAfter, hpar], c4, c5⟩
      · rw [if_neg hpar] at h
        cases hpk : parseKey k with
        | error e => rw [hpk] at h; simp at h
        | ok pk =>
            rw [hpk] at h
            simp only [] at h
            have heA : entryAccepted cfg k =
                (if cfg.ignoreBuiltInKeys && builtInKeys.contains pk.sourceKey then none
                 else if testKey pk.sourceKey cfg.ignoreKeys &&
                     !testKey pk.sourceKey cfg.acceptKeys then none
                 else some pk) := by
              simp [entryAccepted, hpar, hpk]
            by_cases hbi : (cfg.ignoreBuiltInKeys && builtInKeys.contains pk.sourceKey) = true
            · rw [if_pos hbi] at h
              obtain ⟨c1, c2, c3, c4, c5⟩ := ih p ne nx p' ne' nx' h
              have hacc : acceptedTargetsOf cfg ((k, v) :: rest) = acceptedTargetsOf cfg rest := by
                simp only [acceptedTargetsOf, List.filterMap_cons, heA, if_pos hbi,
                  Option.map_none']
              rw [hacc]
              exact ⟨c1, c2, by rw [c3]; simp [paramsAfter, hpar], c4, c5⟩
            · rw [if_neg hbi] at h
              by_cases hig : (testKey pk.sourceKey cfg.ignoreKeys &&
                  !testKey pk.sourceKey cfg.acceptKeys) = true
              · rw [if_pos hig] at h
                obtain ⟨c1, c2, c3, c4, c5⟩ := ih p ne nx p' ne' nx' h
                have hacc : acceptedTargetsOf cfg ((k, v) :: rest) = acceptedTargetsOf cfg rest := by
                  simp only [acceptedTargetsOf, List.filterMap_cons, heA, if_neg hbi,
                    if_pos hig, Option.map_none']
                rw [hacc]
                exact ⟨c1, c2, by rw [c3]; simp [paramsAfter, hpar], c4, c5⟩
              · rw [if_neg hig] at h
                have hacc : acceptedTargetsOf cfg ((k, v) :: rest) =
                    pk.targetKey :: acceptedTargetsOf cfg rest := by
                  simp only [acceptedTargetsOf, List.filterMap_cons, heA, if_neg hbi,
                    if_neg hig, Option.map_some']
                cases hsub : rec v pk.sourceKey pk.isOptional with
                | error e => rw [hsub] at h; simp at h
                | ok sub =>
                    rw [hsub] at h
                    simp only [] at h
                    by_cases htk : pk.targetKey = ""
                    · rw [if_neg (not_not_intro htk)] at h
                      cases nx with
                      | some nxe => simp at h
                      | none =>
                          obtain ⟨c1, c2, c3, c4, c5⟩ := ih p ne (some sub) p' ne' nx' h
                          rw [hacc]
                          refine ⟨?_, ?_, ?_, ?_, c5⟩
                          · intro t ht
                            rw [c1 t ht]
                            simp [htk, List.mem_cons, ht]
                          · rw [c2]
                            simp [htk]
                          · rw [c3]; simp [paramsAfter, hpar]
                          · simp [List.count_cons, htk] at c4 ⊢
                            omega
                    · rw [if_pos htk] at h
                      obtain ⟨c1, c2, c3, c4, c5⟩ :=
                        ih p (some (insertAL (ne.getD []) pk.targetKey sub)) nx p' ne' nx' h
                      rw [hacc]
                      refine ⟨?_, ?_, ?_, ?_, ?_⟩
                      · intro t ht
                        rw [c1 t ht]
                        show (t ∈ (insertAL (ne.getD []) pk.targetKey sub).map Prod.fst ∨
                            t ∈ acceptedTargetsOf cfg rest) ↔ _
                        rw [mem_insertAL_keys]
                        show _ ↔ (t ∈ neKeys ne ∨
                            t ∈ pk.targetKey :: acceptedTargetsOf cfg rest)
                        simp only [neKeys, List.mem_cons]
                        tauto
                      · rw [c2]
                        simp only [List.mem_cons]
                        have : ¬("" = pk.targetKey) := fun he => htk he.symm
                        tauto
                      · rw [c3]; simp [paramsAfter, hpar]
                      · have hcnt : List.count "" (pk.targetKey :: acceptedTargetsOf cfg rest) =
                            List.count "" (acceptedTargetsOf cfg rest) :=
                          List.count_cons_of_ne (fun he => htk he.symm) _
                        rw [hcnt]
                        exact c4
                      · intro hnd
                        exact c5 (nodup_insertAL_keys _ _ _ hnd)

/-- A node satisfying `GoodE` never has both kinds of children. -/
theorem GoodE.not_both {e : Expression} (h : GoodE e) :
    ¬(e.nextExpression.isSome = true ∧ e.nestedExpressions.isSome = true) := by
  cases h with
  | intro sk opt uce p nx ne hb _ _ => exact hb

/-- The loop preserves goodness of the accumulated children, provided the
recursive parser only returns good expressions. -/
theorem processEntriesGo_good (rec : Query → String → Bool → Except ParseError Expression)
    (cfg : Config) (hrec : ∀ v s o e, rec v s o = .ok e → GoodE e) :
    ∀ (entries : List (String × Query)) (p : Option Query)
      (ne : Option (List (String × Expression))) (nx : Option Expression)
      (p' : Option Query) (ne' : Option (List (String × Expression)))
      (nx' : Option Expression),
      (∀ x ∈ ne.getD [], GoodE x.2) → (∀ e, nx = some e → GoodE e) →
      processEntriesGo rec cfg entries p ne nx = .ok (p', ne', nx') →
      (∀ x ∈ ne'.getD [], GoodE x.2) ∧ (∀ e, nx' = some e → GoodE e) := by
  intro entries
  induction entries with
  | nil =>
      intro p ne nx p' ne' nx' hne hnx h
      simp only [processEntriesGo, Except.ok.injEq] at h
      obtain ⟨rfl, rfl, rfl⟩ := Prod.mk.injEq .. |>.mp (by exact h) |>.imp id
        (fun h2 => Prod.mk.injEq .. |>.mp h2)
      exact ⟨hne, hnx⟩
  | cons kv rest ih =>
      obtain ⟨k, v⟩ := kv
      intro p ne nx p' ne' nx' hne hnx h
      rw [processEntriesGo_cons] at h
      by_cases hpar : k = "()"
      · rw [if_pos hpar] at h
        exact ih (some v) ne nx p' ne' nx' hne hnx h
      · rw [if_neg hpar] at h
        cases hpk : parseKey k with
        | error e => rw [hpk] at h; simp at h
        | ok pk =>
            rw [hpk] at h
            simp only [] at h
            by_cases hbi : (cfg.ignoreBuiltInKeys && builtInKeys.contains pk.sourceKey) = true
            · rw [if_pos hbi] at h
              exact ih p ne nx p' ne' nx' hne hnx h
            · rw [if_neg hbi] at h
              by_cases hig : (testKey pk.sourceKey cfg.ignoreKeys &&
                  !testKey pk.sourceKey cfg.acceptKeys) = true
              · rw [if_pos hig] at h
                exact ih p ne nx p' ne' nx' hne hnx h
              · rw [if_neg hig] at h
                cases hsub : rec v pk.sourceKey pk.isOptional with
                | error e => rw [hsub] at h; simp at h
                | ok sub =>
                    rw [hsub] at h
                    simp only [] at h
                    have hgsub : GoodE sub := hrec _ _ _ _ hsub
                    by_cases htk : pk.targetKey = ""
                    · rw [if_neg (not_not_intro htk)] at h
                      cases nx with
                      | some nxe => simp at h
                      | none =>
                          refine ih p ne (some sub) p' ne' nx' hne ?_ h
                          intro e he
                          cases he
                          exact hgsub
                    · rw [if_pos htk] at h
                      refine ih p (some (insertAL (ne.getD []) pk.targetKey sub)) nx
                        p' ne' nx' ?_ hnx h
                      intro x hx
                      rcases mem_insertAL _ _ _ x hx with hx2 | hx2
                      · rw [hx2]; exact hgsub
                      · exact hne x hx2

/-- `assemble` only returns good nodes when the loop state is good. -/
theorem assemble_good (sk : String) (opt uce : Bool) (st : LoopState) (e : Expression)
    (hne : ∀ x ∈ st.2.1.getD [], GoodE x.2)
    (hnx : ∀ e0, st.2.2 = some e0 → GoodE e0)
    (h : assemble sk opt uce st = .ok e) : GoodE e := by
  obtain ⟨p, ne, nx⟩ := st
  cases nx with
  | some nxe =>
      cases ne with
      | some l => simp [assemble] at h
      | none =>
          simp only [assemble, Except.ok.injEq] at h
          rw [← h]
          refine GoodE.intro _ _ _ _ _ _ (by simp) ?_ (by intro l hl; cases hl)
          intro e0 he0
          cases he0
          exact hnx nxe rfl
  | none =>
      simp only [assemble, Except.ok.injEq] at h
      rw [← h]
      refine GoodE.intro _ _ _ _ _ _ (by simp) (by intro e0 he0; cases he0) ?_
      intro l hl x hx
      apply hne
      rw [hl]
      exact hx

/-- The body parser only returns good nodes. -/
theorem parseBodyGo_good (rec : Query → String → Bool → Except ParseError Expression)
    (cfg : Config) (hrec : ∀ v s o e, rec v s o = .ok e → GoodE e)
    (q : Query) (sk : String) (opt uce : Bool) (e : Expression)
    (h : parseBodyGo rec cfg q sk opt uce = .ok e) : GoodE e := by
  cases q with
  | qtrue =>
      simp only [parseBodyGo, Except.ok.injEq] at h
      rw [← h]
      exact GoodE.intro _ _ _ _ _ _ (by simp) (by intro e0 he0; cases he0)
        (by intro l hl; cases hl)
  | map entries =>
      simp only [parseBodyGo] at h
      cases hpe : processEntriesGo rec cfg entries none none none with
      | error err => rw [hpe] at h; simp [Except.bind] at h
      | ok st =>
          rw [hpe] at h
          simp only [Except.bind] at h
          obtain ⟨hg1, hg2⟩ := processEntriesGo_good rec cfg hrec entries none none none
            st.1 st.2.1 st.2.2 (by simp) (by intro e0 he0; cases he0) (by rw [hpe])
          exact assemble_good sk opt uce st e hg1 hg2 h
  | arr xs =>
      simp only [parseBodyGo] at h
      cases hpe : processEntriesGo rec cfg (indexEntries xs) none none none with
      | error err => rw [hpe] at h; simp [Except.bind] at h
      | ok st =>
          rw [hpe] at h
          simp only [Except.bind] at h
          obtain ⟨hg1, hg2⟩ := processEntriesGo_good rec cfg hrec (indexEntries xs)
            none none none st.1 st.2.1 st.2.2 (by simp) (by intro e0 he0; cases he0)
            (by rw [hpe])
          exact assemble_good sk opt uce st e hg1 hg2 h
  | qfalse => simp [parseBodyGo] at h
  | qnull => simp [parseBodyGo] at h
  | undef => simp [parseBodyGo] at h
  | num n => simp [parseBodyGo] at h
  | str s => simp [parseBodyGo] at h

/-- Every successful run of the fueled parser returns a good tree. -/
theorem parseQ_good : ∀ (fuel : Nat) (q : Query) (sk : String) (opt : Bool)
    (cfg : Config) (e : Expression), parseQ fuel q sk opt cfg = .ok e → GoodE e := by
  intro fuel
  induction fuel with
  | zero => intro q sk opt cfg e h; simp [parseQ] at h
  | succ f ih =>
      intro q sk opt cfg e h
      rw [parseQ_step] at h
      cases q with
      | undef => simp at h
      | arr l =>
          match l with
          | [q'] =>
              simp only [] at h
              exact parseBodyGo_good _ cfg (fun v s o e0 hv => ih v s o cfg e0 hv)
                q' sk opt true e h
          | [] => simp at h
          | q1 :: q2 :: r => simp at h
      | qtrue =>
          exact parseBodyGo_good _ cfg (fun v s o e0 hv => ih v s o cfg e0 hv)
            .qtrue sk opt false e h
      | qfalse =>
          exact parseBodyGo_good _ cfg (fun v s o e0 hv => ih v s o cfg e0 hv)
            .qfalse sk opt false e h
      | qnull =>
          exact parseBodyGo_good _ cfg (fun v s o e0 hv => ih v s o cfg e0 hv)
            .qnull sk opt false e h
      | num n =>
          exact parseBodyGo_good _ cfg (fun v s o e0 hv => ih v s o cfg e0 hv)
            (.num n) sk opt false e h
      | str s =>
          exact parseBodyGo_good _ cfg (fun v s o e0 hv => ih v s o cfg e0 hv)
            (.str s) sk opt false e h
      | map entries =>
          exact parseBodyGo_good _ cfg (fun v s o e0 hv => ih v s o cfg e0 hv)
            (.map entries) sk opt false e h

/-- Every successful `parseQuery` returns a good tree. -/
theorem parseQuery_good (q : Query) (opts : Options) (e : Expression)
    (h : parseQuery q opts = .ok e) : GoodE e := by
  cases q with
  | undef => simp [parseQuery] at h
  | qtrue => exact parseQ_good _ _ _ _ _ _ h
  | qfalse => exact parseQ_good _ _ _ _ _ _ h
  | qnull => exact parseQ_good _ _ _ _ _ _ h
  | num n => exact parseQ_good _ _ _ _ _ _ h
  | str s => exact parseQ_good _ _ _ _ _ _ h
  | arr l => exact parseQ_good _ _ _ _ _ _ h
  | map l => exact parseQ_good _ _ _ _ _ _ h

/-- Field-level description of a successful parse of a mapping: the
nested keys are exactly the non-empty accepted targets (each exactly
once), `nextExpression` is present exactly when an accepted entry has an
empty target, the `params` slot holds the last parameter-marker value,
and at most one accepted entry may have an empty target. -/
theorem parseQuery_map_fields (entries : List (String × Query)) (opts : Options)
    (e : Expression) (h : parseQuery (.map entries) opts = .ok e) :
    (∀ t, t ≠ "" →
      (t ∈ neKeys e.nestedExpressions ↔ t ∈ acceptedTargetsOf (normCfg opts) entries)) ∧
    (e.nextExpression.isSome = true ↔ "" ∈ acceptedTargetsOf (normCfg opts) entries) ∧
    e.params = paramsAfter entries none ∧
    (acceptedTargetsOf (normCfg opts) entries).count "" ≤ 1 ∧
    (neKeys e.nestedExpressions).Nodup := by
  have h' : parseQ (efuel entries + 1) (.map entries) "" false (normCfg opts) = .ok e := h
  rw [parseQ_step] at h'
  simp only [] at h'
  simp only [parseBodyGo] at h'
  cases hpe : processEntriesGo (fun v s o => parseQ (efuel entries) v s o (normCfg opts))
      (normCfg opts) entries none none none with
  | error err => rw [hpe] at h'; simp [Except.bind] at h'
  | ok st =>
      rw [hpe] at h'
      simp only [Except.bind] at h'
      obtain ⟨p, ne, nx⟩ := st
      obtain ⟨c1, c2, c3, c4, c5⟩ :=
        processEntriesGo_spec (fun v s o => parseQ (efuel entries) v s o (normCfg opts))
          (normCfg opts) entries none none none p ne nx hpe
      cases nx with
      | some nxe =>
          cases ne with
          | some l => simp [assemble] at h'
          | none =>
              simp only [assemble, Except.ok.injEq] at h'
              rw [← h']
              simp only [Expression.nestedExpressions, Expression.nextExpression,
                Expression.params, neKeys, Option.getD_none, List.map_nil]
              refine ⟨?_, ?_, c3, ?_, List.nodup_nil⟩
              · intro t ht
                have := c1 t ht
                simp only [neKeys, Option.getD_none, List.map_nil,
                  List.not_mem_nil, false_or] at this
                simp [List.not_mem_nil, this]
              · have := c2
                simp only [Option.isSome_some, Option.isSome_none,
                  Bool.false_eq_true, false_or, true_iff] at this
                simp [this]
              · simpa using c4
      | none =>
          simp only [assemble, Except.ok.injEq] at h'
          rw [← h']
          simp only [Expression.nestedExpressions, Expression.nextExpression,
            Expression.params]
          refine ⟨?_, ?_, c3, ?_, ?_⟩
          · intro t ht
            have := c1 t ht
            simpa [neKeys] using this
          · have := c2
            simp only [Option.isSome_none, Bool.false_eq_true, false_or] at this
            simp [this]
          · simpa using c4
          · exact c5 (by simp [neKeys])

/-- The body parser stamps its `useCollectionElements` argument on the
returned node. -/
theorem parseBodyGo_uce (rec : Query → String → Bool → Except ParseError Expression)
    (cfg : Config) (q : Query) (sk : String) (opt uce : Bool) (e : Expression)
    (h : parseBodyGo rec cfg q sk opt uce = .ok e) :
    e.useCollectionElements = uce := by
  cases q with
  | qtrue =>
      simp only [parseBodyGo, Except.ok.injEq] at h
      rw [← h]
      rfl
  | map entries =>
      simp only [parseBodyGo] at h
      cases hpe : processEntriesGo rec cfg entries none none none with
      | error err => rw [hpe] at h; simp [Except.bind] at h
      | ok st =>
          rw [hpe] at h
          simp only [Except.bind] at h
          obtain ⟨p, ne, nx⟩ := st
          cases nx with
          | some nxe =>
              cases ne with
              | some l => simp [assemble] at h
              | none =>
                  simp only [assemble, Except.ok.injEq] at h
                  rw [← h]; rfl
          | none =>
              simp only [assemble, Except.ok.injEq] at h
              rw [← h]; rfl
  | arr xs =>
      simp only [parseBodyGo] at h
      cases hpe : processEntriesGo rec cfg (indexEntries xs) none none none with
      | error err => rw [hpe] at h; simp [Except.bind] at h
      | ok st =>
          rw [hpe] at h
          simp only [Except.bind] at h
          obtain ⟨p, ne, nx⟩ := st
          cases nx with
          | some nxe =>
              cases ne with
              | some l => simp [assemble] at h
              | none =>
                  simp only [assemble, Except.ok.injEq] at h
                  rw [← h]; rfl
          | none =>
              simp only [assemble, Except.ok.injEq] at h
              rw [← h]; rfl
  | qfalse => simp [parseBodyGo] at h
  | qnull => simp [parseBodyGo] at h
  | undef => simp [parseBodyGo] at h
  | num n => simp [parseBodyGo] at h
  | str s => simp [parseBodyGo] at h

/-- Membership after one level of `_addKeys`: everything previously
present, plus the level's names other than `'name'` and `'length'`. -/
theorem addOwnNames_mem : ∀ (names array : List String) (k : String),
    k ∈ addOwnNames array names ↔
      (k ∈ array ∨ (k ≠ "name" ∧ k ≠ "length" ∧ k ∈ names)) := by
  intro names
  induction names with
  | nil => intro array k; simp [addOwnNames]
  | cons n ns ih =>
      intro array k
      simp only [addOwnNames]
      rw [ih]
      by_cases hc : n = "name" ∨ n = "length" ∨ array.contains n
      · rw [if_pos hc]
        rcases hc with rfl | rfl | hc
        · simp only [List.mem_cons]; tauto
        · simp only [List.mem_cons]; tauto
        · have hn : n ∈ array := by simpa using hc
          by_cases hkn : k = n
          · subst hkn; simp [hn]
          · simp only [List.mem_cons]
            constructor
            · rintro (h | ⟨h1, h2, h3⟩)
              · exact Or.inl h
              · exact Or.inr ⟨h1, h2, Or.inr h3⟩
            · rintro (h | ⟨h1, h2, h3 | h3⟩)
              · exact Or.inl h
              · exact absurd h3 hkn
              · exact Or.inr ⟨h1, h2, h3⟩
      · rw [if_neg hc]
        push_neg at hc
        obtain ⟨hn1, hn2, hn3⟩ := hc
        by_cases hkn : k = n
        · subst hkn
          constructor
          · intro _
            exact Or.inr ⟨hn1, hn2, List.mem_cons_self _ _⟩
          · intro _
            exact Or.inl (by simp [List.mem_append])
        · simp only [List.mem_append, List.mem_cons, List.not_mem_nil, or_false]
          constructor
          · rintro ((h | h) | ⟨h1, h2, h3⟩)
            · exact Or.inl h
            · exact absurd h hkn
            · exact Or.inr ⟨h1, h2, Or.inr h3⟩
          · rintro (h | ⟨h1, h2, h3 | h3⟩)
            · exact Or.inl (Or.inl h)
            · exact absurd h3 hkn
            · exact Or.inr ⟨h1, h2, h3⟩

/-- Membership in the accumulated `_addKeys` result over a whole
prototype chain: everything previously present, plus every name occurring
somewhere in the chain other than `'name'` and `'length'`. -/
theorem _addKeys_mem : ∀ (chain : List (List String)) (array : List String) (k : String),
    k ∈ _addKeys array chain ↔
      (k ∈ array ∨ (k ≠ "name" ∧ k ≠ "length" ∧ ∃ names ∈ chain, k ∈ names)) := by
  intro chain
  induction chain with
  | nil => intro array k; simp [_addKeys]
  | cons names rest ih =>
      intro array k
      simp only [_addKeys]
      rw [ih, addOwnNames_mem]
      simp only [List.mem_cons]
      constructor
      · rintro ((h | ⟨h1, h2, h3⟩) | ⟨h1, h2, ns, hns, hk⟩)
        · exact Or.inl h
        · exact Or.inr ⟨h1, h2, names, Or.inl rfl, h3⟩
        · exact Or.inr ⟨h1, h2, ns, Or.inr hns, hk⟩
      · rintro (h | ⟨h1, h2, ns, hns | hns, hk⟩)
        · exact Or.inl (Or.inl h)
        · exact Or.inl (Or.inr ⟨h1, h2, hns ▸ hk⟩)
        · exact Or.inr ⟨h1, h2, ns, hns, hk⟩

/-! ### Claims -/

/-- Claim C1: for every query and configuration on which `parseQuery`
succeeds on a mapping, every entry that is not the parameter marker, not
filtered as a built-in key, and not dropped by the ignore/accept matchers
appears exactly once at its level: a non-empty target key occurs (once,
keys being unique) among the `nestedExpressions` keys, an empty target is
reflected by the single `nextExpression`, and no other keys occur (a
duplicate target key collapses to the single surviving binding, matching
the silent-overwrite note). -/
theorem claim1_total_coverage (entries : List (String × Query)) (opts : Options)
    (e : Expression) (h : parseQuery (.map entries) opts = .ok e) :
    (∀ t, t ≠ "" →
      (t ∈ neKeys e.nestedExpressions ↔ t ∈ acceptedTargetsOf (normCfg opts) entries)) ∧
    (e.nextExpression.isSome = true ↔ "" ∈ acceptedTargetsOf (normCfg opts) entries) ∧
    (neKeys e.nestedExpressions).Nodup := by
  obtain ⟨c1, c2, _, _, c5⟩ := parseQuery_map_fields entries opts e h
  exact ⟨c1, c2, c5⟩

theorem claim1_total_coverage_witness :
    (∀ t, t ≠ "" →
      (t ∈ neKeys (Expression.mk "" false false none none
          (some [("a", .mk "b" false false none none none)])).nestedExpressions ↔
        t ∈ acceptedTargetsOf (normCfg defaultOptions)
          [("a", .qtrue), ("b=>a", .qtrue)])) ∧
    ((Expression.mk "" false false none none
        (some [("a", .mk "b" false false none none none)])).nextExpression.isSome = true ↔
      "" ∈ acceptedTargetsOf (normCfg defaultOptions) [("a", .qtrue), ("b=>a", .qtrue)]) ∧
    (neKeys (Expression.mk "" false false none none
        (some [("a", .mk "b" false false none none none)])).nestedExpressions).Nodup :=
  claim1_total_coverage [("a", .qtrue), ("b=>a", .qtrue)] defaultOptions
    (.mk "" false false none none (some [("a", .mk "b" false false none none none)])) rfl

/-- Claim C2: at most one of `nextExpression` and `nestedExpressions` is
set on any node of a successful parse, never both (`GoodE` asserts this
at every node of the tree), and the mixed level `{"a=>": true, b: true}`
fails with the ConflictingTargets error. -/
theorem claim2_exclusive_children :
    (∀ (q : Query) (opts : Options) (e : Expression),
        parseQuery q opts = .ok e → GoodE e) ∧
    parseQuery (.map [("a=>", .qtrue), ("b", .qtrue)]) defaultOptions =
      .error .conflictingTargets :=
  ⟨parseQuery_good, rfl⟩

theorem claim2_exclusive_children_witness :
    GoodE (.mk "" false false none none none) :=
  claim2_exclusive_children.1 .qtrue defaultOptions (.mk "" false false none none none) rfl

/-- Claim C3: a successful parse admits at most one accepted empty-target
entry per mapping level (so two or more sibling empty targets cannot
parse); the level `{"a=>": {x: true}, "b=>": {y: true}}` fails with the
MultipleEmptyTargets error; a single empty-target entry succeeds and its
child becomes `nextExpression`. -/
theorem claim3_multiple_empty_targets :
    (∀ (entries : List (String × Query)) (opts : Options) (e : Expression),
        parseQuery (.map entries) opts = .ok e →
        (acceptedTargetsOf (normCfg opts) entries).count "" ≤ 1) ∧
    parseQuery (.map [("a=>", .map [("x", .qtrue)]), ("b=>", .map [("y", .qtrue)])])
        defaultOptions = .error .multipleEmptyTargets ∧
    parseQuery (.map [("a=>", .map [("x", .qtrue)])]) defaultOptions =
      .ok (.mk "" false false none
        (some (.mk "a" false false none none
          (some [("x", .mk "x" false false none none none)]))) none) :=
  ⟨fun entries opts e h => (parseQuery_map_fields entries opts e h).2.2.2.1, rfl, rfl⟩

theorem claim3_multiple_empty_targets_witness :
    (acceptedTargetsOf (normCfg defaultOptions) [("a=>", .qtrue)]).count "" ≤ 1 :=
  claim3_multiple_empty_targets.1 [("a=>", .qtrue)] defaultOptions
    (.mk "" false false none (some (.mk "a" false false none none none)) none) rfl

/-- Claim C4: a one-element sequence is unwrapped, the resulting node has
`useCollectionElements = true`, and the wrapped value is processed as the
node's body; `{movies: [{title: true}]}` yields `nestedExpressions.movies`
with `useCollectionElements = true` and a `title` leaf one level inside. -/
theorem claim4_collection_elements :
    (∀ (q : Query) (opts : Options) (e : Expression),
        parseQuery (.arr [q]) opts = .ok e → e.useCollectionElements = true) ∧
    (∀ (fuel : Nat) (q : Query) (sk : String) (opt : Bool) (cfg : Config),
        parseQ (fuel + 1) (.arr [q]) sk opt cfg =
          parseBodyGo (fun v s o => parseQ fuel v s o cfg) cfg q sk opt true) ∧
    parseQuery (.map [("movies", .arr [.map [("title", .qtrue)]])]) defaultOptions =
      .ok (.mk "" false false none none
        (some [("movies", .mk "movies" false true none none
          (some [("title", .mk "title" false false none none none)]))])) := by
  refine ⟨?_, fun fuel q sk opt cfg => rfl, rfl⟩
  intro q opts e h
  have h' : parseQ (lfuel [q] + 1) (.arr [q]) "" false (normCfg opts) = .ok e := h
  rw [parseQ_step] at h'
  simp only [] at h'
  exact parseBodyGo_uce _ _ _ _ _ _ _ h'

theorem claim4_collection_elements_witness :
    (Expression.mk "" false true none none none).useCollectionElements = true :=
  claim4_collection_elements.1 .qtrue defaultOptions
    (.mk "" false true none none none) rfl

/-- Claim C5: the reserved `"()"` key stores its value verbatim in the
`params` slot of the current node and never produces a child: a loop step
on a parameter-marker entry only replaces the params accumulator, and on
success `params` is the last marker value; the aliased example yields a
child under target key `actionMovies` with `sourceKey = "movies"`,
`params = {genre: "action"}` and no children. -/
theorem claim5_params_marker :
    (∀ (rec : Query → String → Bool → Except ParseError Expression) (cfg : Config)
        (v : Query) (rest : List (String × Query)) (p : Option Query)
        (ne : Option (List (String × Expression))) (nx : Option Expression),
        processEntriesGo rec cfg (("()", v) :: rest) p ne nx =
          processEntriesGo rec cfg rest (some v) ne nx) ∧
    (∀ (entries : List (String × Query)) (opts : Options) (e : Expression),
        parseQuery (.map entries) opts = .ok e →
        e.params = paramsAfter entries none) ∧
    parseQuery
        (.map [("movies=>actionMovies", .map [("()", .map [("genre", .str "action")])])])
        defaultOptions =
      .ok (.mk "" false false none none
        (some [("actionMovies",
          .mk "movies" false false (some (.map [("genre", .str "action")])) none none)])) :=
  ⟨fun _ _ _ _ _ _ _ => rfl,
   fun entries opts e h => (parseQuery_map_fields entries opts e h).2.2.1, rfl⟩

theorem claim5_params_marker_witness :
    processEntriesGo (fun _ _ _ => .error .outOfFuel) ⟨[], [], true⟩
        [("()", .qtrue)] none none none =
      processEntriesGo (fun _ _ _ => .error .outOfFuel) ⟨[], [], true⟩
        [] (some .qtrue) none none ∧
    (Expression.mk "" false false (some .qtrue) none none).params =
      paramsAfter [("()", .qtrue)] none :=
  ⟨claim5_params_marker.1 (fun _ _ _ => .error .outOfFuel) ⟨[], [], true⟩
      .qtrue [] none none none,
   claim5_params_marker.2.1 [("()", .qtrue)] defaultOptions
      (.mk "" false false (some .qtrue) none none) rfl⟩

/-- Claim C6 counterexample: the claim lists a sequence among the values
that must fail with InvalidQueryShape after unwrapping, but
`parseQuery([[true]])` succeeds — a JavaScript array passes the
`typeof query === 'object'` test, so the inner array is iterated through
`Object.entries` as a mapping keyed by element indices. -/
theorem claim6_shape_counterexample :
    parseQuery (.arr [.arr [.qtrue]]) defaultOptions =
      .ok (.mk "" false true none none
        (some [("0", .mk "0" false false none none none)])) := rfl

/-- Claim C6 (amended): if after unwrapping a one-element sequence the
value is `null`, `false`, a number, a string, or `undefined` — i.e.
neither `true`, nor a mapping, nor a sequence — `parseQuery` fails with
the InvalidQueryShape error carrying the offending value; the same holds
in non-unwrapped position except for `undefined`, which is reported as a
missing query instead. -/
theorem claim6_invalid_shape (v : Query) (opts : Options) (h : badScalar v = true) :
    parseQuery (.arr [v]) opts = .error (.invalidQueryShape v) ∧
    (v.isUndef = false → parseQuery v opts = .error (.invalidQueryShape v)) := by
  cases v with
  | qnull => exact ⟨rfl, fun _ => rfl⟩
  | qfalse => exact ⟨rfl, fun _ => rfl⟩
  | num n => exact ⟨rfl, fun _ => rfl⟩
  | str s => exact ⟨rfl, fun _ => rfl⟩
  | undef => exact ⟨rfl, fun hc => by simp [Query.isUndef] at hc⟩
  | qtrue => simp [badScalar] at h
  | arr l => simp [badScalar] at h
  | map l => simp [badScalar] at h

theorem claim6_invalid_shape_witness :
    badScalar .qnull = true ∧
    (parseQuery (.arr [.qnull]) defaultOptions = .error (.invalidQueryShape .qnull) ∧
     (Query.isUndef .qnull = false →
        parseQuery .qnull defaultOptions = .error (.invalidQueryShape .qnull))) :=
  ⟨rfl, claim6_invalid_shape .qnull defaultOptions rfl⟩

/-- Claim C7 counterexample: the claim states every array of length other
than one appearing as a raw sub-query value fails with
InvalidArraySyntax, but `parseQuery([[true, true]])` succeeds — the
length check is not applied to an array that is itself the unwrapped
element of a one-element array; it is iterated as a mapping keyed by
element indices instead. -/
theorem claim7_array_counterexample :
    parseQuery (.arr [.arr [.qtrue, .qtrue]]) defaultOptions =
      .ok (.mk "" false true none none
        (some [("0", .mk "0" false false none none none),
               ("1", .mk "1" false false none none none)])) := rfl

/-- Claim C7 (amended): an array reaching the array check of
`_parseQuery` — the top-level query or any mapping entry's value, i.e.
every position except directly inside another array — whose length is not
exactly one fails with the InvalidArraySyntax error. -/
theorem claim7_array_length (xs : List Query) (opts : Options) (h : xs.length ≠ 1) :
    parseQuery (.arr xs) opts = .error .invalidArrayForm := by
  have h2 : parseQuery (.arr xs) opts =
      parseQ (lfuel xs + 1) (.arr xs) "" false (normCfg opts) := rfl
  rw [h2, parseQ_step]
  rcases xs with _ | ⟨q1, _ | ⟨q2, r⟩⟩
  · rfl
  · exact absurd rfl h
  · rfl

theorem claim7_array_length_witness :
    ([] : List Query).length ≠ 1 ∧
    parseQuery (.arr []) defaultOptions = .error .invalidArrayForm :=
  ⟨by decide, claim7_array_length [] defaultOptions (by decide)⟩

/-- Claim C8: a raw source key ending in the optional marker `'?'` is
stripped and marked `isOptional = true`; for a key with no separator the
target equals the stripped source; `{"rating?": true}` yields an optional
leaf with `sourceKey = "rating"` stored under target key `"rating"`. -/
theorem claim8_optional_marker :
    (∀ s : List Char, parseSourceKey (s ++ ['?']) = (s, true)) ∧
    (∀ (k : String) (pk : ParsedKey), parseKey k = .ok pk →
        (splitArrow k.data).length = 1 → pk.targetKey = pk.sourceKey) ∧
    parseQuery (.map [("rating?", .qtrue)]) defaultOptions =
      .ok (.mk "" false false none none
        (some [("rating", .mk "rating" true false none none none)])) := by
  refine ⟨?_, ?_, rfl⟩
  · intro s
    simp [parseSourceKey, List.getLast?_concat, List.dropLast_concat]
  · intro k pk hk hlen
    unfold parseKey at hk
    rcases hsp : splitArrow k.data with _ | ⟨s, _ | ⟨t, r⟩⟩
    · rw [hsp] at hk
      exact Except.noConfusion hk
    · rw [hsp] at hk
      simp only [] at hk
      cases hps : parseSourceKey s with
      | mk sk opt =>
          rw [hps] at hk
          simp only [Except.ok.injEq] at hk
          rw [← hk]
    · rw [hsp] at hlen
      simp at hlen

theorem claim8_optional_marker_witness :
    parseSourceKey (['a'] ++ ['?']) = (['a'], true) ∧
    ((⟨"a", "a", false⟩ : ParsedKey).targetKey = (⟨"a", "a", false⟩ : ParsedKey).sourceKey) :=
  ⟨claim8_optional_marker.1 ['a'],
   claim8_optional_marker.2.1 "a" ⟨"a", "a", false⟩ rfl rfl⟩

/-- Claim C9: an entry whose parsed source key matches the ignore list
and not the accept list is skipped entirely; matching the accept list as
well makes it parse normally (accept overrides ignore); a single non-list
matcher is treated as a one-element list. -/
theorem claim9_ignore_accept :
    (∀ (q : Query) (mi ma : Matcher) (b : Bool),
        parseQuery q ⟨.one mi, .one ma, b⟩ = parseQuery q ⟨.many [mi], .many [ma], b⟩) ∧
    (∀ (rec : Query → String → Bool → Except ParseError Expression) (cfg : Config)
        (k : String) (v : Query) (rest : List (String × Query)) (p : Option Query)
        (ne : Option (List (String × Expression))) (nx : Option Expression)
        (pk : ParsedKey),
        k ≠ "()" → parseKey k = .ok pk →
        (cfg.ignoreBuiltInKeys && builtInKeys.contains pk.sourceKey) = false →
        testKey pk.sourceKey cfg.ignoreKeys = true →
        testKey pk.sourceKey cfg.acceptKeys = false →
        processEntriesGo rec cfg ((k, v) :: rest) p ne nx =
          processEntriesGo rec cfg rest p ne nx) ∧
    (∀ (rec : Query → String → Bool → Except ParseError Expression) (cfg : Config)
        (k : String) (v : Query) (rest : List (String × Query)) (p : Option Query)
        (ne : Option (List (String × Expression))) (nx : Option Expression)
        (pk : ParsedKey),
        k ≠ "()" → parseKey k = .ok pk →
        (cfg.ignoreBuiltInKeys && builtInKeys.contains pk.sourceKey) = false →
        testKey pk.sourceKey cfg.ignoreKeys = true →
        testKey pk.sourceKey cfg.acceptKeys = true →
        processEntriesGo rec cfg ((k, v) :: rest) p ne nx =
          (match rec v pk.sourceKey pk.isOptional with
           | .error e => .error e
           | .ok sub =>
               if pk.targetKey ≠ "" then
                 processEntriesGo rec cfg rest p
                   (some (insertAL (ne.getD []) pk.targetKey sub)) nx
               else
                 match nx with
                 | some _ => .error .multipleEmptyTargets
                 | none => processEntriesGo rec cfg rest p ne (some sub))) ∧
    parseQuery (.map [("secret", .qtrue), ("title", .qtrue)])
        ⟨.one (.str "secret"), .many [], true⟩ =
      .ok (.mk "" false false none none
        (some [("title", .mk "title" false false none none none)])) ∧
    parseQuery (.map [("secret", .qtrue), ("title", .qtrue)])
        ⟨.one (.str "secret"), .one (.str "secret"), true⟩ =
      .ok (.mk "" false false none none
        (some [("secret", .mk "secret" false false none none none),
               ("title", .mk "title" false false none none none)])) := by
  refine ⟨?_, ?_, ?_, rfl, rfl⟩
  · intro q mi ma b
    cases q <;> rfl
  · intro rec cfg k v rest p ne nx pk hpar hpk hbi hig hac
    rw [processEntriesGo_cons, if_neg hpar, hpk]
    simp only []
    have hbi' : ¬((cfg.ignoreBuiltInKeys && builtInKeys.contains pk.sourceKey) = true) := by
      rw [hbi]; decide
    rw [if_neg hbi']
    have hig' : (testKey pk.sourceKey cfg.ignoreKeys &&
        !testKey pk.sourceKey cfg.acceptKeys) = true := by
      rw [hig, hac]; rfl
    rw [if_pos hig']
  · intro rec cfg k v rest p ne nx pk hpar hpk hbi hig hac
    rw [processEntriesGo_cons, if_neg hpar, hpk]
    simp only []
    have hbi' : ¬((cfg.ignoreBuiltInKeys && builtInKeys.contains pk.sourceKey) = true) := by
      rw [hbi]; decide
    rw [if_neg hbi']
    have hig' : ¬((testKey pk.sourceKey cfg.ignoreKeys &&
        !testKey pk.sourceKey cfg.acceptKeys) = true) := by
      rw [hig, hac]; decide
    rw [if_neg hig']

theorem claim9_ignore_accept_witness :
    processEntriesGo (fun _ _ _ => .error .outOfFuel) ⟨[.str "secret"], [], true⟩
        [("secret", .qtrue)] none none none =
      processEntriesGo (fun _ _ _ => .error .outOfFuel) ⟨[.str "secret"], [], true⟩
        [] none none none :=
  claim9_ignore_accept.2.1 (fun _ _ _ => .error .outOfFuel) ⟨[.str "secret"], [], true⟩
    "secret" .qtrue [] none none none ⟨"secret", "secret", false⟩
    (by decide) rfl rfl rfl rfl

/-- Claim C10: membership in the built-in key list is exactly "occurs on
one of the modelled prototype chains and is neither `'name'` nor
`'length'`"; in particular `"name"` and `"length"` are never filtered
while `"constructor"`, `"toString"` and `"hasOwnProperty"` are; with
`ignoreBuiltInKeys` set, the loop skips an entry whose source key is in
the list. -/
theorem claim10_builtin_keys :
    (∀ (array : List String) (chain : List (List String)) (k : String),
        k ∈ _addKeys array chain ↔
          (k ∈ array ∨ (k ≠ "name" ∧ k ≠ "length" ∧ ∃ names ∈ chain, k ∈ names))) ∧
    ("name" ∉ builtInKeys ∧ "length" ∉ builtInKeys ∧ "constructor" ∈ builtInKeys ∧
     "toString" ∈ builtInKeys ∧ "hasOwnProperty" ∈ builtInKeys) ∧
    (∀ (rec : Query → String → Bool → Except ParseError Expression) (cfg : Config)
        (k : String) (v : Query) (rest : List (String × Query)) (p : Option Query)
        (ne : Option (List (String × Expression))) (nx : Option Expression)
        (pk : ParsedKey),
        k ≠ "()" → parseKey k = .ok pk → cfg.ignoreBuiltInKeys = true →
        builtInKeys.contains pk.sourceKey = true →
        processEntriesGo rec cfg ((k, v) :: rest) p ne nx =
          processEntriesGo rec cfg rest p ne nx) ∧
    parseQuery (.map [("name", .qtrue), ("length", .qtrue), ("constructor", .qtrue),
        ("toString", .qtrue), ("hasOwnProperty", .qtrue)]) defaultOptions =
      .ok (.mk "" false false none none
        (some [("name", .mk "name" false false none none none),
               ("length", .mk "length" false false none none none)])) := by
  refine ⟨fun array chain k => _addKeys_mem chain array k, by decide, ?_, rfl⟩
  intro rec cfg k v rest p ne nx pk hpar hpk hbi hcon
  rw [processEntriesGo_cons, if_neg hpar, hpk]
  simp only []
  have hcond : (cfg.ignoreBuiltInKeys && builtInKeys.contains pk.sourceKey) = true := by
    rw [hbi, hcon]; rfl
  rw [if_pos hcond]

theorem claim10_builtin_keys_witness :
    processEntriesGo (fun _ _ _ => .error .outOfFuel) ⟨[], [], true⟩
        [("constructor", .qtrue)] none none none =
      processEntriesGo (fun _ _ _ => .error .outOfFuel) ⟨[], [], true⟩
        [] none none none :=
  claim10_builtin_keys.2.2.1 (fun _ _ _ => .error .outOfFuel) ⟨[], [], true⟩
    "constructor" .qtrue [] none none none ⟨"constructor", "constructor", false⟩
    (by decide) rfl rfl rfl
